import Mathlib

/-!
Verification of `fix_latex_smart.py`, a Markdown/LaTeX rewriting tool.

The document is modelled as Python models it after `content.split('\n')`:
a list of lines, each line a `List Char`.  Character classes (`\s`, `\w`,
`[A-Za-z]`, `str.strip`) are modelled over their ASCII meaning, which is the
domain the tool is used on.  Each regex substitution of the source is
embedded as a left-to-right scanner with exactly the source's matching
discipline (leftmost match, greedy/lazy as the pattern dictates, scanning
resuming after each match, lookbehind evaluated on the original string).
Scanning functions whose recursive call lands on a computed suffix are
written with a structural fuel parameter (`fuel = length` always suffices,
each step consumes at least one element); this keeps every definition
computable by `decide`/`rfl`.
-/

/-- Left brace character (written numerically). -/
def lbrace : Char := Char.ofNat 123

/-- Right brace character (written numerically). -/
def rbrace : Char := Char.ofNat 125

/-- Backquote character (written numerically). -/
def backquote : Char := Char.ofNat 96

/-- ASCII whitespace, the model of Python's `\s` and of `str.strip`'s class. -/
def isPySpace (c : Char) : Bool :=
  c == ' ' || c == '\t' || c == '\n' || c == '\r' || c == Char.ofNat 11 || c == Char.ofNat 12

/-- ASCII word character, the model of Python's `\w`: `[A-Za-z0-9_]`. -/
def isWordChar (c : Char) : Bool :=
  c.isAlphanum || c == '_'

/-- The regex class `[A-Za-z]`. -/
def isAsciiLetter (c : Char) : Bool :=
  c.isAlpha

/-- Strip trailing whitespace: Python's `str.rstrip()`. -/
def rstripL (l : List Char) : List Char :=
  (l.reverse.dropWhile isPySpace).reverse

/-- Strip leading and trailing whitespace: Python's `str.strip()`. -/
def pystrip (l : List Char) : List Char :=
  rstripL (l.dropWhile isPySpace)

/-- The closed vocabulary of the `LATEX_COMMANDS` regex, in source order. -/
def VOCAB : List (List Char) :=
  (["frac", "int", "sum", "prod", "sqrt", "partial", "infty", "pm", "mp",
    "times", "div", "cdot", "circ", "sim",
    "approx", "equiv", "leq", "geq", "neq", "rightarrow", "leftarrow",
    "leftrightarrow", "boxed", "mid",
    "Rightarrow", "Leftarrow", "to", "mapsto", "text", "mathcal", "mathbb",
    "mathrm", "mathbf",
    "hat", "bar", "vec", "dot", "tilde", "lim", "max", "min", "log", "exp",
    "sin", "cos", "tan",
    "alpha", "beta", "gamma", "delta", "epsilon", "zeta", "eta", "theta",
    "iota", "kappa", "lambda", "mu", "nu",
    "xi", "pi", "rho", "sigma", "tau", "upsilon", "phi", "chi", "psi", "omega",
    "Alpha", "Beta", "Gamma", "Delta", "Epsilon", "Zeta", "Eta", "Theta",
    "Lambda", "Mu", "Nu",
    "Xi", "Pi", "Rho", "Sigma", "Tau", "Upsilon", "Phi", "Chi", "Psi",
    "Omega"] : List String).map String.data

/-- Does some vocabulary name start at the head of `r`?  This is the
alternation of `LATEX_COMMANDS` tried at the position after a backslash. -/
def vocabPrefix (r : List Char) : Bool :=
  VOCAB.any (fun n => n.isPrefixOf r)

/-- `is_math(text)`: does `LATEX_COMMANDS.search(text)` find a match, i.e.
is there a backslash somewhere immediately followed by a vocabulary name? -/
def is_math : List Char → Bool
  | [] => false
  | c :: r => (decide (c = '\\') && vocabPrefix r) || is_math r

/-- Depth-counted scan of `extract_paren_content`'s loop, at depth `d > 0`:
returns the characters up to (excluding) the parenthesis that brings the
depth to zero, together with the characters after it. -/
def extractParenAux : Nat → List Char → Option (List Char × List Char)
  | _, [] => none
  | d, c :: r =>
      if c = '(' then (extractParenAux (d + 1) r).map (fun p => (c :: p.1, p.2))
      else if c = ')' then
        if d = 1 then some ([], r)
        else (extractParenAux (d - 1) r).map (fun p => (c :: p.1, p.2))
      else (extractParenAux d r).map (fun p => (c :: p.1, p.2))

/-- `extract_paren_content(s, start)` viewed from the suffix of `s` that
begins at `start`: `none` models the Python `(None, -1)` result, and
`some (content, after)` models `(content, i)` with `after` the characters
after position `i`. -/
def extract_paren_content : List Char → Option (List Char × List Char)
  | '(' :: r => extractParenAux 1 r
  | _ => none

/-- Decides "the string ends before the nesting depth returns to zero" for
the depth-counting scan started at depth `d`. -/
def noCloseB : Nat → List Char → Bool
  | _, [] => true
  | d, c :: r =>
      if c = '(' then noCloseB (d + 1) r
      else if c = ')' then
        if d = 1 then false else noCloseB (d - 1) r
      else noCloseB d r

/-- First occurrence of a single `'$'`: `findD r = some (a, b)` iff
`r = a ++ '$' :: b` with `a` dollar-free. -/
def findD : List Char → Option (List Char × List Char)
  | [] => none
  | c :: r =>
      if c = '$' then some ([], r)
      else (findD r).map (fun p => (c :: p.1, p.2))

/-- First occurrence of `"$$"`, as in `line.find('$$', i)`. -/
def findDD : List Char → Option (List Char × List Char)
  | [] => none
  | c :: r =>
      if c = '$' ∧ r.head? = some '$' then some ([], r.tail)
      else (findDD r).map (fun p => (c :: p.1, p.2))

/-- Try `n` as a literal prefix of `r`. -/
def tryPrefix (n r : List Char) : Option (List Char × List Char) :=
  if n.isPrefixOf r then some (n, r.drop n.length) else none

/-- First alternative of `ns` that is a prefix of `r`, modelling a regex
alternation of literal words. -/
def firstMatch (ns : List (List Char)) (r : List Char) : Option (List Char × List Char) :=
  match ns with
  | [] => none
  | n :: t =>
      match tryPrefix n r with
      | some x => some x
      | none => firstMatch t r

/-- The style-command alternation of normalize_math step 1. -/
def styleCmds : List (List Char) :=
  (["mathcal", "mathbb", "mathrm", "mathbf", "text"] : List String).map String.data

/-- The relation-command alternation of normalize_math step 3
(each including its leading backslash). -/
def relCmds : List (List Char) :=
  (["\\sim", "\\circ", "\\mid", "\\approx", "\\equiv", "\\cdot"] : List String).map String.data

/-- Step 1 of `normalize_math`, fuelled scanner for
`re.sub(r'\\(mathcal|mathbb|mathrm|mathbf|text)\s+([A-Za-z])', r'\\\1{\2}', text)`. -/
def step1F : Nat → List Char → List Char
  | _, [] => []
  | 0, l => l
  | n + 1, '\\' :: r =>
      match firstMatch styleCmds r with
      | some (cmd, r2) =>
          match r2.dropWhile isPySpace with
          | c2 :: r3 =>
              if r2.takeWhile isPySpace ≠ [] ∧ isAsciiLetter c2 = true then
                '\\' :: (cmd ++ lbrace :: c2 :: rbrace :: step1F n r3)
              else '\\' :: step1F n r
          | [] => '\\' :: step1F n r
      | none => '\\' :: step1F n r
  | n + 1, c :: r => c :: step1F n r

/-- Step 1 of `normalize_math` (adequately fuelled). -/
def step1 (l : List Char) : List Char := step1F l.length l

/-- The lookahead of step 2 after a comma: `(\s*)(d\w+)` with `\s*` and
`\w+` greedy.  Returns the whitespace, the `d`-token and the remainder. -/
def matchWsDtok (r : List Char) : Option (List Char × List Char × List Char) :=
  match r.dropWhile isPySpace with
  | 'd' :: c2 :: r2 =>
      if isWordChar c2 then
        some (r.takeWhile isPySpace, 'd' :: c2 :: r2.takeWhile isWordChar,
          r2.dropWhile isWordChar)
      else none
  | _ => none

/-- Step 2 of `normalize_math`, fuelled scanner for
`re.sub(r',(\s*)(d\w+)', r'\,\1\2', text)`. -/
def step2F : Nat → List Char → List Char
  | _, [] => []
  | 0, l => l
  | n + 1, c :: r =>
      if c = ',' then
        match matchWsDtok r with
        | some (w, tok, r2) => '\\' :: ',' :: (w ++ tok ++ step2F n r2)
        | none => ',' :: step2F n r
      else c :: step2F n r

/-- Step 2 of `normalize_math` (adequately fuelled). -/
def step2 (l : List Char) : List Char := step2F l.length l

/-- Step 3 of `normalize_math`, fuelled scanner for
`re.sub(r';\s*(\\sim|\\circ|\\mid|\\approx|\\equiv|\\cdot)\s*;', r' \1 ', text)`. -/
def step3F : Nat → List Char → List Char
  | _, [] => []
  | 0, l => l
  | n + 1, ';' :: r =>
      (match firstMatch relCmds (r.dropWhile isPySpace) with
       | some (rel, r2) =>
           match r2.dropWhile isPySpace with
           | ';' :: r4 => ' ' :: (rel ++ ' ' :: step3F n r4)
           | _ => ';' :: step3F n r
       | none => ';' :: step3F n r)
  | n + 1, c :: r => c :: step3F n r

/-- Step 3 of `normalize_math` (adequately fuelled). -/
def step3 (l : List Char) : List Char := step3F l.length l

/-- One scanning pass of `re.sub(r'(?<!\\)#', r'\\#', ...)`; the first
argument is the character preceding the scan position in the ORIGINAL
string (the regex lookbehind inspects the original, not the replacement). -/
def ehAux : Option Char → List Char → List Char
  | _, [] => []
  | p, c :: r =>
      if c = '#' then
        if p = some '\\' then '#' :: ehAux (some '#') r
        else '\\' :: '#' :: ehAux (some '#') r
      else c :: ehAux (some c) r

/-- `escape_hash_in_math(line)` (the same substitution is inlined as step 4
of `normalize_math`). -/
def escape_hash_in_math (l : List Char) : List Char := ehAux none l

/-- Split at every `'$'`; always returns one more segment than there are
dollar signs. -/
def dollarSplit : List Char → List (List Char)
  | [] => [[]]
  | c :: r =>
      if c = '$' then [] :: dollarSplit r
      else
        match dollarSplit r with
        | s :: ss => (c :: s) :: ss
        | [] => [[c]]

/-- Reassemble after `re.sub(r'\$([^$]*)\$', r'\1', text)`: the scan pairs
dollars up from the left and deletes each pair, so segments are glued in
pairs and a final unpaired dollar survives. -/
def jpPairs : List (List Char) → List Char
  | [] => []
  | [s] => s
  | [s, t] => s ++ '$' :: t
  | s :: t :: u :: rest => s ++ t ++ jpPairs (u :: rest)

/-- Step 5 of `normalize_math`. -/
def step5 (l : List Char) : List Char := jpPairs (dollarSplit l)

/-- (Rewrites of `normalize_math` without step 5 and the final strip:
the composite of steps 1-4, used to examine their idempotence.) -/
def normSteps14 (l : List Char) : List Char :=
  escape_hash_in_math (step3 (step2 (step1 l)))

/-- `normalize_math(text)`: steps 1-5 in source order, then `strip()`. -/
def normalize_math (l : List Char) : List Char :=
  pystrip (step5 (escape_hash_in_math (step3 (step2 (step1 l)))))

/-- The separator glyphs of `is_pure_separator` ( `=`, em dash, `_`,
en dash, `-`, space ). -/
def sepChars : List Char := ['=', Char.ofNat 8212, '_', Char.ofNat 8211, '-', ' ']

/-- `is_pure_separator(line)`. -/
def is_pure_separator (line : List Char) : Bool :=
  decide (pystrip line ≠ []) && (pystrip line).all (fun c => sepChars.contains c)

/-- Flush a pending run of `k` copies of `c`: a run of three or more was
matched by `{3,}` and is replaced by one space, shorter runs are literal. -/
def repFlush (c : Char) (k : Nat) : List Char :=
  if 3 ≤ k then [' '] else List.replicate k c

/-- Scanner for `re.sub(r'c{3,}', ' ', line)` with a pending-run counter. -/
def rsAux (c : Char) : Nat → List Char → List Char
  | k, [] => repFlush c k
  | k, x :: r =>
      if x = c then rsAux c (k + 1) r
      else repFlush c k ++ (x :: rsAux c 0 r)

/-- `re.sub(r'c{3,}', ' ', line)` for a single glyph `c`. -/
def runSub (c : Char) (l : List Char) : List Char := rsAux c 0 l

/-- Scanner for `re.sub(r'\s+', ' ', line)`; the flag records whether the
previous character belonged to a whitespace run already emitted as one space. -/
def wcAux : Bool → List Char → List Char
  | _, [] => []
  | p, c :: r =>
      if isPySpace c then
        if p then wcAux true r else ' ' :: wcAux true r
      else c :: wcAux false r

/-- `re.sub(r'\s+', ' ', line)`. -/
def wsCollapse (l : List Char) : List Char := wcAux false l

/-- `clean_display_lines(lines)`. -/
def clean_display_lines : List (List Char) → List (List Char)
  | [] => []
  | l :: r =>
      if is_pure_separator l then clean_display_lines r
      else
        let l5 := wsCollapse (escape_hash_in_math (runSub '_' (runSub '-' (runSub '=' l))))
        if pystrip l5 = [] then clean_display_lines r
        else rstripL l5 :: clean_display_lines r

/-- Scan for an occurrence of `](http://` or `](https://` reachable
without crossing a newline (the reach of the lazy `.*?`). -/
def remAux : List Char → Bool
  | [] => false
  | c :: r =>
      if ("](http://".data).isPrefixOf (c :: r) || ("](https://".data).isPrefixOf (c :: r) then
        true
      else if c = '\n' then false
      else remAux r

/-- `is_remote_image(line)`: `re.match(r'!\[.*?\]\(https?://', line.strip())`. -/
def is_remote_image (line : List Char) : Bool :=
  match pystrip line with
  | '!' :: '[' :: r => remAux r
  | _ => false

/-- Is the stripped line a code fence: `line.strip().startswith('```')`. -/
def fenceB (line : List Char) : Bool :=
  [backquote, backquote, backquote].isPrefixOf (pystrip line)

/-- The character scanner of `convert_inline_parens`, fuelled.  At each
position: copy a `$$...$$` span verbatim when a closing `$$` exists; else
copy a `$...$` span verbatim when a closing `$` exists; else at `(` with a
balanced extraction whose content is math, wrap its normalization in single
dollars; otherwise copy one character. -/
def ciF : Nat → List Char → List Char
  | _, [] => []
  | 0, l => l
  | n + 1, c :: r =>
      if c = '$' then
        if r.head? = some '$' then
          match findDD r.tail with
          | some (a, b) => '$' :: '$' :: (a ++ '$' :: '$' :: ciF n b)
          | none => '$' :: ciF n r
        else
          match findD r with
          | some (a, b) => '$' :: (a ++ '$' :: ciF n b)
          | none => '$' :: ciF n r
      else if c = '(' then
        match extract_paren_content (c :: r) with
        | some (cont, aft) =>
            if is_math cont then '$' :: (normalize_math cont ++ '$' :: ciF n aft)
            else '(' :: ciF n r
        | none => '(' :: ciF n r
      else c :: ciF n r

/-- `convert_inline_parens(line)` (adequately fuelled). -/
def convert_inline_parens (l : List Char) : List Char := ciF l.length l

/-- Interior of a display block: the lines before the first line whose
stripped content is `t`. -/
def blockTake (t : List Char) (rest : List (List Char)) : List (List Char) :=
  rest.takeWhile (fun m => decide (pystrip m ≠ t))

/-- Lines after a display block: everything past the terminator line. -/
def blockRest (t : List Char) (rest : List (List Char)) : List (List Char) :=
  (rest.dropWhile (fun m => decide (pystrip m ≠ t))).tail

/-- What a display block contributes to the output: nothing when cleaning
removed every line, otherwise blank line, `$$`, the cleaned lines, `$$`,
blank line. -/
def blockOut (cleaned : List (List Char)) : List (List Char) :=
  if cleaned = [] then []
  else [] :: "$$".data :: (cleaned ++ ["$$".data, []])

/-- The main loop of `fix_content`, fuelled by the number of lines; the
Boolean is `in_code_block`. -/
def fixLinesF : Nat → Bool → List (List Char) → List (List Char)
  | _, _, [] => []
  | 0, _, ls => ls
  | n + 1, b, l :: rest =>
      if fenceB l then l :: fixLinesF n (!b) rest
      else if b then l :: fixLinesF n b rest
      else if is_remote_image l then fixLinesF n b rest
      else if pystrip l = "[".data then
        blockOut (clean_display_lines (blockTake "]".data rest)) ++
          fixLinesF n b (blockRest "]".data rest)
      else if pystrip l = "$$".data then
        blockOut (clean_display_lines (blockTake "$$".data rest)) ++
          fixLinesF n b (blockRest "$$".data rest)
      else convert_inline_parens (escape_hash_in_math l) :: fixLinesF n b rest

/-- The main loop of `fix_content` (adequately fuelled). -/
def fixLines (b : Bool) (lines : List (List Char)) : List (List Char) :=
  fixLinesF lines.length b lines

/-- The final pass of `fix_content`: collapse runs of empty lines, keeping
the first of each run; the flag is `prev_empty`. -/
def collapseAux : Bool → List (List Char) → List (List Char)
  | _, [] => []
  | p, l :: r =>
      if l = [] then
        if p then collapseAux true r else [] :: collapseAux true r
      else l :: collapseAux false r

/-- `fix_content(content)` at the level of line lists: the main loop from a
cleared code flag, then the blank-line collapse. -/
def fix_content_lines (doc : List (List Char)) : List (List Char) :=
  collapseAux false (fixLines false doc)

/-! ### Generic list facts -/

theorem dw_length_le {α} (p : α → Bool) (l : List α) :
    (l.dropWhile p).length ≤ l.length := by
  induction l with
  | nil => simp
  | cons x t ih =>
      rw [List.dropWhile_cons]
      by_cases hx : p x = true
      · rw [if_pos hx]; exact Nat.le_trans ih (Nat.le_succ _)
      · rw [if_neg hx]

theorem tw_append_all {α} (p : α → Bool) (a b : List α) (ha : ∀ x ∈ a, p x = true) :
    (a ++ b).takeWhile p = a ++ b.takeWhile p := by
  induction a with
  | nil => rfl
  | cons x t ih =>
      have hx : p x = true := ha x (List.mem_cons_self x t)
      have ht : ∀ y ∈ t, p y = true := fun y hy => ha y (List.mem_cons_of_mem x hy)
      simp [List.takeWhile_cons, hx, ih ht]

theorem dw_append_all {α} (p : α → Bool) (a b : List α) (ha : ∀ x ∈ a, p x = true) :
    (a ++ b).dropWhile p = b.dropWhile p := by
  induction a with
  | nil => rfl
  | cons x t ih =>
      have hx : p x = true := ha x (List.mem_cons_self x t)
      have ht : ∀ y ∈ t, p y = true := fun y hy => ha y (List.mem_cons_of_mem x hy)
      simp [List.dropWhile_cons, hx, ih ht]

theorem tw_head_false {α} (p : α → Bool) (l : List α)
    (h : ∀ x, l.head? = some x → p x = false) : l.takeWhile p = [] := by
  cases l with
  | nil => rfl
  | cons x t => simp [List.takeWhile_cons, h x rfl]

theorem dw_head_false {α} (p : α → Bool) (l : List α)
    (h : ∀ x, l.head? = some x → p x = false) : l.dropWhile p = l := by
  cases l with
  | nil => rfl
  | cons x t => simp [List.dropWhile_cons, h x rfl]

/-! ### Facts about the dollar finders -/

theorem findD_eq (r : List Char) : ∀ a b, findD r = some (a, b) → r = a ++ '$' :: b := by
  induction r with
  | nil => intro a b h; exact absurd h (by simp [findD])
  | cons c t ih =>
      intro a b h
      simp only [findD] at h
      by_cases hc : c = '$'
      · rw [if_pos hc] at h
        simp only [Option.some.injEq, Prod.mk.injEq] at h
        obtain ⟨rfl, rfl⟩ := h
        simp [hc]
      · rw [if_neg hc] at h
        cases ht : findD t with
        | none => rw [ht] at h; exact absurd h (by simp)
        | some p =>
            obtain ⟨a1, b1⟩ := p
            rw [ht] at h
            simp only [Option.map_some', Option.some.injEq, Prod.mk.injEq] at h
            obtain ⟨rfl, rfl⟩ := h
            rw [List.cons_append, ih a1 b1 ht]

theorem findD_append (a b : List Char) (ha : '$' ∉ a) :
    findD (a ++ '$' :: b) = some (a, b) := by
  induction a with
  | nil => simp [findD]
  | cons c t ih =>
      have hc : c ≠ '$' := fun h => ha (by simp [h])
      rw [List.cons_append]
      simp only [findD]
      rw [if_neg hc, ih (fun h => ha (List.mem_cons_of_mem c h))]
      rfl

theorem findDD_eq (r : List Char) : ∀ a b, findDD r = some (a, b) → r = a ++ '$' :: '$' :: b := by
  induction r with
  | nil => intro a b h; exact absurd h (by simp [findDD])
  | cons c t ih =>
      intro a b h
      simp only [findDD] at h
      by_cases hc : c = '$' ∧ t.head? = some '$'
      · rw [if_pos hc] at h
        simp only [Option.some.injEq, Prod.mk.injEq] at h
        obtain ⟨rfl, rfl⟩ := h
        obtain ⟨hc1, hc2⟩ := hc
        cases t with
        | nil => exact absurd hc2 (by simp)
        | cons c2 t2 =>
            simp only [List.head?_cons, Option.some.injEq] at hc2
            simp [hc1, hc2]
      · rw [if_neg hc] at h
        cases ht : findDD t with
        | none => rw [ht] at h; exact absurd h (by simp)
        | some p =>
            obtain ⟨a1, b1⟩ := p
            rw [ht] at h
            simp only [Option.map_some', Option.some.injEq, Prod.mk.injEq] at h
            obtain ⟨rfl, rfl⟩ := h
            rw [List.cons_append, ih a1 b1 ht]

/-! ### Facts about the parenthesis extractor -/

theorem extractParenAux_eq (r : List Char) : ∀ d a b,
    extractParenAux d r = some (a, b) → r = a ++ ')' :: b := by
  induction r with
  | nil => intro d a b h; exact absurd h (by simp [extractParenAux])
  | cons c t ih =>
      intro d a b h
      simp only [extractParenAux] at h
      by_cases hc : c = '('
      · rw [if_pos hc] at h
        cases ht : extractParenAux (d + 1) t with
        | none => rw [ht] at h; exact absurd h (by simp)
        | some p =>
            obtain ⟨a1, b1⟩ := p
            rw [ht] at h
            simp only [Option.map_some', Option.some.injEq, Prod.mk.injEq] at h
            obtain ⟨rfl, rfl⟩ := h
            rw [List.cons_append, ih _ a1 b1 ht]
      · rw [if_neg hc] at h
        by_cases hc2 : c = ')'
        · rw [if_pos hc2] at h
          by_cases hd : d = 1
          · rw [if_pos hd] at h
            simp only [Option.some.injEq, Prod.mk.injEq] at h
            obtain ⟨rfl, rfl⟩ := h
            simp [hc2]
          · rw [if_neg hd] at h
            cases ht : extractParenAux (d - 1) t with
            | none => rw [ht] at h; exact absurd h (by simp)
            | some p =>
                obtain ⟨a1, b1⟩ := p
                rw [ht] at h
                simp only [Option.map_some', Option.some.injEq, Prod.mk.injEq] at h
                obtain ⟨rfl, rfl⟩ := h
                rw [List.cons_append, ih _ a1 b1 ht]
        · rw [if_neg hc2] at h
          cases ht : extractParenAux d t with
          | none => rw [ht] at h; exact absurd h (by simp)
          | some p =>
              obtain ⟨a1, b1⟩ := p
              rw [ht] at h
              simp only [Option.map_some', Option.some.injEq, Prod.mk.injEq] at h
              obtain ⟨rfl, rfl⟩ := h
              rw [List.cons_append, ih _ a1 b1 ht]

theorem extract_paren_content_eq (l c aft : List Char)
    (h : extract_paren_content l = some (c, aft)) :
    l = '(' :: (c ++ ')' :: aft) := by
  match l with
  | [] => exact absurd h (by simp [extract_paren_content])
  | x :: r =>
      by_cases hx : x = '('
      · subst hx
        have h2 : extractParenAux 1 r = some (c, aft) := h
        rw [extractParenAux_eq r 1 c aft h2]
      · refine absurd h ?_
        have : extract_paren_content (x :: r) = none := by
          unfold extract_paren_content
          split
          · next heq => rw [List.cons.injEq] at heq; exact absurd heq.1 hx
          · rfl
        simp [this]

theorem extractParenAux_none_iff (r : List Char) : ∀ d,
    extractParenAux d r = none ↔ noCloseB d r = true := by
  induction r with
  | nil => intro d; simp [extractParenAux, noCloseB]
  | cons c t ih =>
      intro d
      simp only [extractParenAux, noCloseB]
      by_cases hc : c = '('
      · rw [if_pos hc, if_pos hc, Option.map_eq_none']
        exact ih (d + 1)
      · rw [if_neg hc, if_neg hc]
        by_cases hc2 : c = ')'
        · rw [if_pos hc2, if_pos hc2]
          by_cases hd : d = 1
          · rw [if_pos hd, if_pos hd]; simp
          · rw [if_neg hd, if_neg hd, Option.map_eq_none']
            exact ih (d - 1)
        · rw [if_neg hc2, if_neg hc2, Option.map_eq_none']
          exact ih d

/-! ### Facts about the step 2 lookahead -/

theorem matchWsDtok_eq (r w tok r2 : List Char)
    (h : matchWsDtok r = some (w, tok, r2)) :
    r = w ++ tok ++ r2 ∧ tok ≠ [] := by
  unfold matchWsDtok at h
  split at h
  · next c2 r3 heq =>
      split at h
      · simp only [Option.some.injEq, Prod.mk.injEq] at h
        obtain ⟨hw, htok, hr2⟩ := h
        constructor
        · rw [← hw, ← htok, ← hr2]
          have h1 : r.takeWhile isPySpace ++ r.dropWhile isPySpace = r :=
            List.takeWhile_append_dropWhile isPySpace r
          have h2 : r3.takeWhile isWordChar ++ r3.dropWhile isWordChar = r3 :=
            List.takeWhile_append_dropWhile isWordChar r3
          calc r = r.takeWhile isPySpace ++ r.dropWhile isPySpace := h1.symm
            _ = r.takeWhile isPySpace ++ ('d' :: c2 ::
                (r3.takeWhile isWordChar ++ r3.dropWhile isWordChar)) := by rw [heq, h2]
            _ = r.takeWhile isPySpace ++ ('d' :: c2 :: r3.takeWhile isWordChar)
                ++ r3.dropWhile isWordChar := by simp
        · rw [← htok]; simp
      · exact absurd h (by simp)
  · exact absurd h (by simp)

/-! ### Length corollaries -/

theorem findD_len (r a b : List Char) (h : findD r = some (a, b)) :
    b.length + 1 ≤ r.length := by
  have hr := findD_eq r a b h
  subst hr
  simp [List.length_append]

theorem findDD_len (r a b : List Char) (h : findDD r = some (a, b)) :
    b.length + 2 ≤ r.length := by
  have hr := findDD_eq r a b h
  subst hr
  simp [List.length_append]

theorem epc_len (l c aft : List Char) (h : extract_paren_content l = some (c, aft)) :
    aft.length + 2 ≤ l.length := by
  have hr := extract_paren_content_eq l c aft h
  subst hr
  simp [List.length_append]

theorem mwd_len (r w tok r2 : List Char) (h : matchWsDtok r = some (w, tok, r2)) :
    r2.length + 1 ≤ r.length := by
  obtain ⟨hr, htok⟩ := matchWsDtok_eq r w tok r2 h
  subst hr
  have h1 : 1 ≤ tok.length := by
    cases tok with
    | nil => exact absurd rfl htok
    | cons x t => simp
  simp only [List.length_append]
  omega

/-! ### Facts about `is_math` -/

theorem vocabPrefix_mono (r v : List Char) (h : vocabPrefix r = true) :
    vocabPrefix (r ++ v) = true := by
  unfold vocabPrefix at h ⊢
  rw [List.any_eq_true] at h ⊢
  obtain ⟨n, hn, hp⟩ := h
  refine ⟨n, hn, ?_⟩
  rw [List.isPrefixOf_iff_prefix] at hp ⊢
  exact hp.trans (List.prefix_append r v)

theorem is_math_append_right (u v : List Char) (h : is_math u = true) :
    is_math (u ++ v) = true := by
  induction u with
  | nil => exact absurd h (by simp [is_math])
  | cons c t ih =>
      rw [List.cons_append]
      simp only [is_math, Bool.or_eq_true, Bool.and_eq_true] at h ⊢
      rcases h with ⟨h1, h2⟩ | h3
      · exact Or.inl ⟨h1, vocabPrefix_mono t v h2⟩
      · exact Or.inr (ih h3)

theorem is_math_append_left (u v : List Char) (h : is_math v = true) :
    is_math (u ++ v) = true := by
  induction u with
  | nil => exact h
  | cons c t ih =>
      rw [List.cons_append]
      simp only [is_math, Bool.or_eq_true]
      exact Or.inr ih

theorem vocab_no_rparen : ∀ n ∈ VOCAB, ')' ∉ n := by decide

theorem prefix_snoc_iff (n r : List Char) (c : Char) (hc : c ∉ n) :
    n <+: r ++ [c] ↔ n <+: r := by
  constructor
  · intro h
    have hlen : n.length ≤ r.length + 1 := by
      have := h.length_le
      simpa using this
    by_cases hle : n.length ≤ r.length
    · exact List.prefix_of_prefix_length_le h (List.prefix_append r [c]) hle
    · exfalso
      have heq : n = r ++ [c] := h.eq_of_length (by simp; omega)
      refine hc ?_
      rw [heq]
      simp
  · intro h
    exact h.trans (List.prefix_append r [c])

theorem vocabPrefix_snoc_rparen (r : List Char) :
    vocabPrefix (r ++ [')']) = vocabPrefix r := by
  have h2 : vocabPrefix (r ++ [')']) = true → vocabPrefix r = true := by
    intro hq
    unfold vocabPrefix at hq ⊢
    rw [List.any_eq_true] at hq ⊢
    obtain ⟨n, hn, hp⟩ := hq
    refine ⟨n, hn, ?_⟩
    rw [List.isPrefixOf_iff_prefix] at hp ⊢
    exact (prefix_snoc_iff n r ')' (vocab_no_rparen n hn)).mp hp
  by_cases h : vocabPrefix r = true
  · rw [h, vocabPrefix_mono r [')'] h]
  · rw [Bool.not_eq_true] at h
    rw [h]
    by_cases hq : vocabPrefix (r ++ [')']) = true
    · exact absurd (h2 hq) (by simp [h])
    · rw [Bool.not_eq_true] at hq
      exact hq

theorem is_math_snoc_rparen (c : List Char) :
    is_math (c ++ [')']) = is_math c := by
  induction c with
  | nil => simp [is_math, vocabPrefix, VOCAB]
  | cons x t ih =>
      rw [List.cons_append]
      simp only [is_math, vocabPrefix_snoc_rparen, ih]

/-! ### Fuel irrelevance and equations for the inline scanner -/

theorem ciF_irrel : ∀ n1 : Nat, ∀ l : List Char, ∀ n2 : Nat,
    l.length ≤ n1 → l.length ≤ n2 → ciF n1 l = ciF n2 l := by
  intro n1
  induction n1 with
  | zero =>
      intro l n2 h1 _
      have hl : l = [] := List.eq_nil_of_length_eq_zero (Nat.le_zero.mp h1)
      subst hl
      cases n2 <;> rfl
  | succ n ih =>
      intro l n2 h1 h2
      cases l with
      | nil => cases n2 <;> rfl
      | cons c r =>
          cases n2 with
          | zero => simp at h2
          | succ m =>
              have hr1 : r.length ≤ n := by simpa using h1
              have hr2 : r.length ≤ m := by simpa using h2
              have htl : r.tail.length ≤ r.length := by cases r <;> simp
              simp only [ciF]
              by_cases hc : c = '$'
              · rw [if_pos hc, if_pos hc]
                by_cases hh : r.head? = some '$'
                · rw [if_pos hh, if_pos hh]
                  cases hdd : findDD r.tail with
                  | some p =>
                      obtain ⟨a, b⟩ := p
                      have hb := findDD_len r.tail a b hdd
                      simp only [hdd]
                      rw [ih b m (by omega) (by omega)]
                  | none =>
                      simp only [hdd]
                      rw [ih r m hr1 hr2]
                · rw [if_neg hh, if_neg hh]
                  cases hd : findD r with
                  | some p =>
                      obtain ⟨a, b⟩ := p
                      have hb := findD_len r a b hd
                      simp only [hd]
                      rw [ih b m (by omega) (by omega)]
                  | none =>
                      simp only [hd]
                      rw [ih r m hr1 hr2]
              · rw [if_neg hc, if_neg hc]
                by_cases hp : c = '('
                · rw [if_pos hp, if_pos hp]
                  cases he : extract_paren_content (c :: r) with
                  | some p =>
                      obtain ⟨cont, aft⟩ := p
                      have ha : aft.length + 2 ≤ r.length + 1 := by
                        simpa using epc_len (c :: r) cont aft he
                      simp only [he]
                      by_cases hm : is_math cont = true
                      · rw [if_pos hm, if_pos hm]
                        rw [ih aft m (by omega) (by omega)]
                      · rw [if_neg hm, if_neg hm]
                        rw [ih r m hr1 hr2]
                  | none =>
                      simp only [he]
                      rw [ih r m hr1 hr2]
                · rw [if_neg hp, if_neg hp]
                  rw [ih r m hr1 hr2]

theorem ciF_succ_dd_some (n : Nat) (r2 a b : List Char) (h : findDD r2 = some (a, b)) :
    ciF (n + 1) ('$' :: '$' :: r2) = '$' :: '$' :: (a ++ '$' :: '$' :: ciF n b) := by
  simp [ciF, h]

theorem ciF_succ_dd_none (n : Nat) (r2 : List Char) (h : findDD r2 = none) :
    ciF (n + 1) ('$' :: '$' :: r2) = '$' :: ciF n ('$' :: r2) := by
  simp [ciF, h]

theorem ciF_succ_d_some (n : Nat) (r a b : List Char) (hh : r.head? ≠ some '$')
    (h : findD r = some (a, b)) :
    ciF (n + 1) ('$' :: r) = '$' :: (a ++ '$' :: ciF n b) := by
  simp [ciF, h, hh]

theorem ciF_succ_d_none (n : Nat) (r : List Char) (hh : r.head? ≠ some '$')
    (h : findD r = none) :
    ciF (n + 1) ('$' :: r) = '$' :: ciF n r := by
  simp [ciF, h, hh]

theorem ciF_succ_paren_math (n : Nat) (r cont aft : List Char)
    (he : extract_paren_content ('(' :: r) = some (cont, aft)) (hm : is_math cont = true) :
    ciF (n + 1) ('(' :: r) = '$' :: (normalize_math cont ++ '$' :: ciF n aft) := by
  simp [ciF, he, hm]

theorem ciF_succ_paren_notmath (n : Nat) (r cont aft : List Char)
    (he : extract_paren_content ('(' :: r) = some (cont, aft)) (hm : is_math cont = false) :
    ciF (n + 1) ('(' :: r) = '(' :: ciF n r := by
  simp [ciF, he, hm]

theorem ciF_succ_paren_none (n : Nat) (r : List Char)
    (he : extract_paren_content ('(' :: r) = none) :
    ciF (n + 1) ('(' :: r) = '(' :: ciF n r := by
  simp [ciF, he]

theorem ciF_succ_other (n : Nat) (c : Char) (r : List Char) (h1 : c ≠ '$') (h2 : c ≠ '(') :
    ciF (n + 1) (c :: r) = c :: ciF n r := by
  simp [ciF, h1, h2]

theorem ci_nil : convert_inline_parens [] = [] := rfl

theorem ci_dd_some (r2 a b : List Char) (h : findDD r2 = some (a, b)) :
    convert_inline_parens ('$' :: '$' :: r2) =
      '$' :: '$' :: (a ++ '$' :: '$' :: convert_inline_parens b) := by
  unfold convert_inline_parens
  simp only [List.length_cons]
  rw [ciF_succ_dd_some (r2.length + 1) r2 a b h]
  rw [ciF_irrel (r2.length + 1) b b.length
    (by have := findDD_len r2 a b h; omega) (Nat.le_refl _)]

theorem ci_dd_none (r2 : List Char) (h : findDD r2 = none) :
    convert_inline_parens ('$' :: '$' :: r2) = '$' :: convert_inline_parens ('$' :: r2) := by
  unfold convert_inline_parens
  simp only [List.length_cons]
  rw [ciF_succ_dd_none (r2.length + 1) r2 h]

theorem ci_d_some (r a b : List Char) (hh : r.head? ≠ some '$') (h : findD r = some (a, b)) :
    convert_inline_parens ('$' :: r) = '$' :: (a ++ '$' :: convert_inline_parens b) := by
  unfold convert_inline_parens
  simp only [List.length_cons]
  rw [ciF_succ_d_some r.length r a b hh h]
  rw [ciF_irrel r.length b b.length (by have := findD_len r a b h; omega) (Nat.le_refl _)]

theorem ci_d_none (r : List Char) (hh : r.head? ≠ some '$') (h : findD r = none) :
    convert_inline_parens ('$' :: r) = '$' :: convert_inline_parens r := by
  unfold convert_inline_parens
  simp only [List.length_cons]
  rw [ciF_succ_d_none r.length r hh h]

theorem ci_paren_math (r cont aft : List Char)
    (he : extract_paren_content ('(' :: r) = some (cont, aft)) (hm : is_math cont = true) :
    convert_inline_parens ('(' :: r) =
      '$' :: (normalize_math cont ++ '$' :: convert_inline_parens aft) := by
  unfold convert_inline_parens
  simp only [List.length_cons]
  rw [ciF_succ_paren_math r.length r cont aft he hm]
  rw [ciF_irrel r.length aft aft.length
    (by have := epc_len ('(' :: r) cont aft he; simp at this; omega) (Nat.le_refl _)]

theorem ci_paren_notmath (r cont aft : List Char)
    (he : extract_paren_content ('(' :: r) = some (cont, aft)) (hm : is_math cont = false) :
    convert_inline_parens ('(' :: r) = '(' :: convert_inline_parens r := by
  unfold convert_inline_parens
  simp only [List.length_cons]
  rw [ciF_succ_paren_notmath r.length r cont aft he hm]

theorem ci_paren_none (r : List Char) (he : extract_paren_content ('(' :: r) = none) :
    convert_inline_parens ('(' :: r) = '(' :: convert_inline_parens r := by
  unfold convert_inline_parens
  simp only [List.length_cons]
  rw [ciF_succ_paren_none r.length r he]

theorem ci_other (c : Char) (r : List Char) (h1 : c ≠ '$') (h2 : c ≠ '(') :
    convert_inline_parens (c :: r) = c :: convert_inline_parens r := by
  unfold convert_inline_parens
  simp only [List.length_cons]
  rw [ciF_succ_other r.length c r h1 h2]

/-! ### The scanner is the identity on token-free text -/

theorem not_math_cons (c : Char) (t : List Char) (h : is_math (c :: t) = false) :
    is_math t = false := by
  simp only [is_math, Bool.or_eq_false_iff] at h
  exact h.2

theorem not_math_of_append (u v : List Char) (h : is_math (u ++ v) = false) :
    is_math v = false := by
  by_contra hb
  rw [Bool.not_eq_false] at hb
  rw [is_math_append_left u v hb] at h
  exact absurd h (by simp)

theorem ci_id_aux : ∀ n : Nat, ∀ l : List Char, l.length ≤ n →
    is_math l = false → convert_inline_parens l = l := by
  intro n
  induction n with
  | zero =>
      intro l h1 _
      have hl : l = [] := List.eq_nil_of_length_eq_zero (Nat.le_zero.mp h1)
      subst hl
      exact ci_nil
  | succ n ih =>
      intro l h1 hm
      cases l with
      | nil => exact ci_nil
      | cons c r =>
          have hr1 : r.length ≤ n := by simpa using h1
          have hmr : is_math r = false := not_math_cons c r hm
          by_cases hc : c = '$'
          · subst hc
            cases r with
            | nil =>
                rw [ci_d_none [] (by simp) rfl, ci_nil]
            | cons c2 r2 =>
                by_cases hc2 : c2 = '$'
                · subst hc2
                  cases hdd : findDD r2 with
                  | some p =>
                      obtain ⟨a, b⟩ := p
                      have hrec := findDD_eq r2 a b hdd
                      have hlen := findDD_len r2 a b hdd
                      have hmb : is_math b = false := by
                        have h2 : is_math r2 = false := not_math_cons _ _ hmr
                        rw [hrec] at h2
                        exact not_math_cons _ _ (not_math_cons _ _
                          (not_math_of_append a _ h2))
                      rw [ci_dd_some r2 a b hdd, hrec, ih b (by
                        have : r2.length + 1 ≤ n := by simpa using hr1
                        omega) hmb]
                  | none =>
                      rw [ci_dd_none r2 hdd]
                      rw [ih ('$' :: r2) hr1 hmr]
                · have hh : (c2 :: r2).head? ≠ some '$' := by simp [hc2]
                  cases hd : findD (c2 :: r2) with
                  | some p =>
                      obtain ⟨a, b⟩ := p
                      have hrec := findD_eq (c2 :: r2) a b hd
                      have hlen := findD_len (c2 :: r2) a b hd
                      have hmb : is_math b = false := by
                        have h2 := hmr
                        rw [hrec] at h2
                        exact not_math_cons _ _ (not_math_of_append a _ h2)
                      rw [ci_d_some (c2 :: r2) a b hh hd, hrec, ih b (by
                        have h4 : (c2 :: r2).length ≤ n := hr1
                        simp only [List.length_cons] at h4 hlen
                        omega) hmb]
                  | none =>
                      rw [ci_d_none (c2 :: r2) hh hd]
                      rw [ih (c2 :: r2) hr1 hmr]
          · by_cases hp : c = '('
            · subst hp
              cases he : extract_paren_content ('(' :: r) with
              | some p =>
                  obtain ⟨cont, aft⟩ := p
                  have hcontm : is_math cont = false := by
                    by_contra hb
                    rw [Bool.not_eq_false] at hb
                    have hl := extract_paren_content_eq _ _ _ he
                    have h3 : is_math ('(' :: r) = true := by
                      rw [hl]
                      simp only [is_math, Bool.or_eq_true]
                      exact Or.inr (is_math_append_right cont (')' :: aft) hb)
                    rw [hm] at h3
                    exact absurd h3 (by simp)
                  rw [ci_paren_notmath r cont aft he hcontm]
                  rw [ih r hr1 hmr]
              | none =>
                  rw [ci_paren_none r he, ih r hr1 hmr]
            · rw [ci_other c r hc hp, ih r hr1 hmr]

theorem ci_id_of_not_math (l : List Char) (h : is_math l = false) :
    convert_inline_parens l = l :=
  ci_id_aux l.length l (Nat.le_refl _) h

/-- C1: a line that is exactly one balanced parenthesized span is converted
to the dollar-wrapped normalization of its content when that content holds a
recognized command token, and is left unchanged when it holds none. -/
theorem C1_paren_line (l c : List Char) (hbal : extract_paren_content l = some (c, [])) :
    (is_math c = true → convert_inline_parens l = '$' :: (normalize_math c ++ ['$'])) ∧
    (is_math c = false → convert_inline_parens l = l) := by
  have hl := extract_paren_content_eq l c [] hbal
  constructor
  · intro hm
    rw [hl] at hbal ⊢
    rw [ci_paren_math (c ++ [')']) c [] hbal hm, ci_nil]
  · intro hm
    rw [hl] at hbal ⊢
    rw [ci_paren_notmath (c ++ [')']) c [] hbal hm]
    have h2 : is_math (c ++ [')']) = false := by rw [is_math_snoc_rparen]; exact hm
    rw [ci_id_of_not_math (c ++ [')']) h2]

/-- Witness for C1 at the spec's own examples. -/
theorem C1_paren_line_witness :
    convert_inline_parens "(\\alpha + \\beta)".data = "$\\alpha + \\beta$".data ∧
    convert_inline_parens "(plain text)".data = "(plain text)".data := by
  constructor
  · have h := (C1_paren_line "(\\alpha + \\beta)".data "\\alpha + \\beta".data
      (by decide)).1 (by decide)
    rw [h]
    decide
  · exact (C1_paren_line "(plain text)".data "plain text".data (by decide)).2 (by decide)

/-! ### Fuel irrelevance and equations for step 2 -/

theorem step2F_irrel : ∀ n1 : Nat, ∀ l : List Char, ∀ n2 : Nat,
    l.length ≤ n1 → l.length ≤ n2 → step2F n1 l = step2F n2 l := by
  intro n1
  induction n1 with
  | zero =>
      intro l n2 h1 _
      have hl : l = [] := List.eq_nil_of_length_eq_zero (Nat.le_zero.mp h1)
      subst hl
      cases n2 <;> rfl
  | succ n ih =>
      intro l n2 h1 h2
      cases l with
      | nil => cases n2 <;> rfl
      | cons c r =>
          cases n2 with
          | zero => simp at h2
          | succ m =>
              have hr1 : r.length ≤ n := by simpa using h1
              have hr2 : r.length ≤ m := by simpa using h2
              simp only [step2F]
              by_cases hc : c = ','
              · rw [if_pos hc, if_pos hc]
                cases hmt : matchWsDtok r with
                | some p =>
                    obtain ⟨w, tok, r2⟩ := p
                    have hlen := mwd_len r w tok r2 hmt
                    simp only [hmt]
                    rw [ih r2 m (by omega) (by omega)]
                | none =>
                    simp only [hmt]
                    rw [ih r m hr1 hr2]
              · rw [if_neg hc, if_neg hc]
                rw [ih r m hr1 hr2]

theorem s2F_succ_comma_some (n : Nat) (r w tok r2 : List Char)
    (h : matchWsDtok r = some (w, tok, r2)) :
    step2F (n + 1) (',' :: r) = '\\' :: ',' :: (w ++ tok ++ step2F n r2) := by
  simp [step2F, h]

theorem s2F_succ_comma_none (n : Nat) (r : List Char) (h : matchWsDtok r = none) :
    step2F (n + 1) (',' :: r) = ',' :: step2F n r := by
  simp [step2F, h]

theorem s2F_succ_other (n : Nat) (c : Char) (r : List Char) (h : c ≠ ',') :
    step2F (n + 1) (c :: r) = c :: step2F n r := by
  simp [step2F, h]

theorem s2_nil : step2 [] = [] := rfl

theorem s2_comma_some (r w tok r2 : List Char) (h : matchWsDtok r = some (w, tok, r2)) :
    step2 (',' :: r) = '\\' :: ',' :: (w ++ tok ++ step2 r2) := by
  unfold step2
  simp only [List.length_cons]
  rw [s2F_succ_comma_some r.length r w tok r2 h]
  rw [step2F_irrel r.length r2 r2.length
    (by have := mwd_len r w tok r2 h; omega) (Nat.le_refl _)]

theorem s2_comma_none (r : List Char) (h : matchWsDtok r = none) :
    step2 (',' :: r) = ',' :: step2 r := by
  unfold step2
  simp only [List.length_cons]
  rw [s2F_succ_comma_none r.length r h]

theorem s2_other (c : Char) (r : List Char) (h : c ≠ ',') :
    step2 (c :: r) = c :: step2 r := by
  unfold step2
  simp only [List.length_cons]
  rw [s2F_succ_other r.length c r h]

theorem step2_append_nocomma (p t : List Char) (hp : ',' ∉ p) :
    step2 (p ++ t) = p ++ step2 t := by
  induction p with
  | nil => simp
  | cons x q ih =>
      have hx : x ≠ ',' := fun hxe => hp (by simp [hxe])
      rw [List.cons_append, s2_other x (q ++ t) hx]
      rw [ih (fun hxe => hp (List.mem_cons_of_mem x hxe))]
      rfl

/-- C3: step 2 rewrites a comma, optional whitespace and a `d`-token into
the escaped (thin-space) form, keeping the comma, and resumes scanning
after the token. -/
theorem C3_step2_thinspace (p w cs r : List Char) (c2 : Char)
    (hp : ',' ∉ p)
    (hw : ∀ x ∈ w, isPySpace x = true)
    (hcs : ∀ x ∈ cs, isWordChar x = true)
    (hc2 : isWordChar c2 = true)
    (hr : ∀ x, r.head? = some x → isWordChar x = false) :
    step2 (p ++ ',' :: (w ++ 'd' :: c2 :: cs ++ r)) =
      p ++ '\\' :: ',' :: (w ++ 'd' :: c2 :: cs ++ step2 r) := by
  have hmt : matchWsDtok (w ++ 'd' :: c2 :: cs ++ r) = some (w, 'd' :: c2 :: cs, r) := by
    unfold matchWsDtok
    have hdw : (w ++ 'd' :: c2 :: cs ++ r).dropWhile isPySpace = 'd' :: c2 :: cs ++ r := by
      rw [List.append_assoc, dw_append_all isPySpace w _ hw]
      rw [dw_head_false isPySpace _ (by intro x hx; simp at hx; rw [← hx]; decide)]
    have htw : (w ++ 'd' :: c2 :: cs ++ r).takeWhile isPySpace = w := by
      rw [List.append_assoc, tw_append_all isPySpace w _ hw]
      rw [tw_head_false isPySpace _ (by intro x hx; simp at hx; rw [← hx]; decide)]
      simp
    rw [hdw]
    simp only [List.cons_append]
    rw [if_pos hc2]
    rw [tw_append_all isWordChar cs r hcs, dw_append_all isWordChar cs r hcs]
    rw [tw_head_false isWordChar r hr, dw_head_false isWordChar r hr]
    rw [htw]
    simp
  rw [step2_append_nocomma p _ hp]
  rw [s2_comma_some _ w ('d' :: c2 :: cs) r hmt]

/-- Witness for C3 at the spec's example `,dt`. -/
theorem C3_step2_thinspace_witness : step2 ",dt".data = "\\,dt".data := by
  have h := C3_step2_thinspace [] [] [] [] 't' (by simp) (by simp) (by simp)
    (by decide) (by intro x hx; simp at hx)
  simpa using h

/-! ### C2: idempotence of the normalizer's rewrite steps -/

/-- Counterexample for C2: steps 1-4 are not idempotent; step 2 introduces
a fresh backslash when re-run on its own output `\,dt` (the difference does
not come from step 5). -/
theorem C2_counterexample :
    normSteps14 (normSteps14 ",dt".data) ≠ normSteps14 ",dt".data ∧
    normalize_math (normalize_math ",dt".data) ≠ normalize_math ",dt".data := by
  decide

theorem ehAux_idem : ∀ (l : List Char) (p : Option Char),
    ehAux p (ehAux p l) = ehAux p l := by
  intro l
  induction l with
  | nil => intro p; rfl
  | cons c r ih =>
      intro p
      by_cases hc : c = '#'
      · subst hc
        by_cases hp : p = some '\\'
        · rw [show ehAux p ('#' :: r) = '#' :: ehAux (some '#') r by simp [ehAux, hp]]
          rw [show ehAux p ('#' :: ehAux (some '#') r) =
            '#' :: ehAux (some '#') (ehAux (some '#') r) by simp [ehAux, hp]]
          rw [ih (some '#')]
        · rw [show ehAux p ('#' :: r) = '\\' :: '#' :: ehAux (some '#') r by
            simp [ehAux, hp]]
          rw [show ehAux p ('\\' :: '#' :: ehAux (some '#') r) =
            '\\' :: '#' :: ehAux (some '#') (ehAux (some '#') r) by simp [ehAux]]
          rw [ih (some '#')]
      · rw [show ehAux p (c :: r) = c :: ehAux (some c) r by simp [ehAux, hc]]
        rw [show ehAux p (c :: ehAux (some c) r) =
          c :: ehAux (some c) (ehAux (some c) r) by simp [ehAux, hc]]
        rw [ih (some c)]

/-- C2 amended: step 4 (hash escaping) is idempotent on every input; the
composite of steps 1-4 is not (see the counterexample). -/
theorem C2_hash_escape_idempotent (l : List Char) :
    escape_hash_in_math (escape_hash_in_math l) = escape_hash_in_math l :=
  ehAux_idem l none

/-! ### C6: the classifier -/

/-- C6: `is_math` holds iff the text contains a backslash immediately
followed by a name of the closed vocabulary, anywhere, case-sensitively,
with arbitrary (possibly word) characters allowed right after the name. -/
theorem C6_classifier (l : List Char) :
    is_math l = true ↔ ∃ p n s, n ∈ VOCAB ∧ l = p ++ '\\' :: (n ++ s) := by
  constructor
  · induction l with
    | nil => intro h; exact absurd h (by simp [is_math])
    | cons c r ih =>
        intro h
        simp only [is_math, Bool.or_eq_true, Bool.and_eq_true, decide_eq_true_eq] at h
        rcases h with ⟨hc, hv⟩ | h2
        · subst hc
          unfold vocabPrefix at hv
          rw [List.any_eq_true] at hv
          obtain ⟨n, hn, hpf⟩ := hv
          rw [List.isPrefixOf_iff_prefix] at hpf
          obtain ⟨s, hs⟩ := hpf
          refine ⟨[], n, s, hn, ?_⟩
          rw [← hs]
          rfl
        · obtain ⟨p, n, s, hn, hps⟩ := ih h2
          refine ⟨c :: p, n, s, hn, ?_⟩
          rw [hps]
          rfl
  · rintro ⟨p, n, s, hn, rfl⟩
    induction p with
    | nil =>
        simp only [List.nil_append, is_math, Bool.or_eq_true, Bool.and_eq_true,
          decide_eq_true_eq]
        refine Or.inl ⟨by trivial, ?_⟩
        unfold vocabPrefix
        rw [List.any_eq_true]
        refine ⟨n, hn, ?_⟩
        rw [List.isPrefixOf_iff_prefix]
        exact ⟨s, rfl⟩
    | cons x t ih =>
        rw [List.cons_append]
        simp only [is_math, Bool.or_eq_true]
        exact Or.inr ih

/-! ### C8: unbalanced parentheses -/

/-- Counterexample for C8 as stated: on `((\beta)` the outer parenthesis is
unbalanced and is emitted literally, but the REMAINING characters are not
literal text - scanning resumes and converts the inner span. -/
theorem C8_counterexample :
    extract_paren_content "((\\beta)".data = none ∧
    convert_inline_parens "((\\beta)".data ≠ "((\\beta)".data ∧
    convert_inline_parens "((\\beta)".data = "($\\beta$".data := by
  decide

/-- C8 amended: when the line ends before the depth returns to zero the
extractor reports no match, and the scanner emits the opening parenthesis
as a single literal character and resumes normal scanning at the next
character; no failure is raised (the functions are total). -/
theorem C8_unbalanced_paren (r : List Char) (h : noCloseB 1 r = true) :
    extract_paren_content ('(' :: r) = none ∧
    convert_inline_parens ('(' :: r) = '(' :: convert_inline_parens r := by
  have he : extract_paren_content ('(' :: r) = none := by
    show extractParenAux 1 r = none
    exact (extractParenAux_none_iff r 1).mpr h
  exact ⟨he, ci_paren_none r he⟩

/-- Witness for C8 at a concrete unbalanced line. -/
theorem C8_unbalanced_paren_witness :
    noCloseB 1 "ab(c".data = true ∧
    extract_paren_content ('(' :: "ab(c".data) = none ∧
    convert_inline_parens ('(' :: "ab(c".data) = '(' :: convert_inline_parens "ab(c".data := by
  refine ⟨by decide, C8_unbalanced_paren "ab(c".data (by decide)⟩

/-! ### Fuel irrelevance and equations for the line processor -/

theorem blockRest_len (t : List Char) (rest : List (List Char)) :
    (blockRest t rest).length ≤ rest.length := by
  unfold blockRest
  have h1 := dw_length_le (fun m => decide (pystrip m ≠ t)) rest
  cases h : rest.dropWhile (fun m => decide (pystrip m ≠ t)) with
  | nil => simp
  | cons a l =>
      rw [h] at h1
      simp only [List.length_cons] at h1
      simp only [List.tail_cons]
      omega

theorem fixLinesF_irrel : ∀ n1 : Nat, ∀ (b : Bool) (ls : List (List Char)), ∀ n2 : Nat,
    ls.length ≤ n1 → ls.length ≤ n2 → fixLinesF n1 b ls = fixLinesF n2 b ls := by
  intro n1
  induction n1 with
  | zero =>
      intro b ls n2 h1 _
      have hl : ls = [] := List.eq_nil_of_length_eq_zero (Nat.le_zero.mp h1)
      subst hl
      cases n2 <;> rfl
  | succ n ih =>
      intro b ls n2 h1 h2
      cases ls with
      | nil => cases n2 <;> rfl
      | cons l rest =>
          cases n2 with
          | zero => simp at h2
          | succ m =>
              have hr1 : rest.length ≤ n := by simpa using h1
              have hr2 : rest.length ≤ m := by simpa using h2
              have hbr1 : (blockRest "]".data rest).length ≤ n :=
                Nat.le_trans (blockRest_len _ _) hr1
              have hbr2 : (blockRest "]".data rest).length ≤ m :=
                Nat.le_trans (blockRest_len _ _) hr2
              have hbd1 : (blockRest "$$".data rest).length ≤ n :=
                Nat.le_trans (blockRest_len _ _) hr1
              have hbd2 : (blockRest "$$".data rest).length ≤ m :=
                Nat.le_trans (blockRest_len _ _) hr2
              simp only [fixLinesF]
              by_cases hf : fenceB l = true
              · rw [if_pos hf, if_pos hf, ih (!b) rest m hr1 hr2]
              · rw [if_neg hf, if_neg hf,
                  ih b rest m hr1 hr2,
                  ih b (blockRest "]".data rest) m hbr1 hbr2,
                  ih b (blockRest "$$".data rest) m hbd1 hbd2]

theorem flF_succ_fence (n : Nat) (b : Bool) (l : List Char) (rest : List (List Char))
    (h : fenceB l = true) :
    fixLinesF (n + 1) b (l :: rest) = l :: fixLinesF n (!b) rest := by
  simp [fixLinesF, h]

theorem flF_succ_code (n : Nat) (l : List Char) (rest : List (List Char))
    (h : fenceB l = false) :
    fixLinesF (n + 1) true (l :: rest) = l :: fixLinesF n true rest := by
  simp [fixLinesF, h]

theorem flF_succ_image (n : Nat) (l : List Char) (rest : List (List Char))
    (h1 : fenceB l = false) (h2 : is_remote_image l = true) :
    fixLinesF (n + 1) false (l :: rest) = fixLinesF n false rest := by
  simp [fixLinesF, h1, h2]

theorem flF_succ_bracket (n : Nat) (l : List Char) (rest : List (List Char))
    (h1 : fenceB l = false) (h2 : is_remote_image l = false)
    (hbk : pystrip l = "[".data) :
    fixLinesF (n + 1) false (l :: rest) =
      blockOut (clean_display_lines (blockTake "]".data rest)) ++
        fixLinesF n false (blockRest "]".data rest) := by
  simp [fixLinesF, h1, h2, hbk]

theorem flF_succ_dollar (n : Nat) (l : List Char) (rest : List (List Char))
    (h1 : fenceB l = false) (h2 : is_remote_image l = false)
    (_h3 : pystrip l ≠ "[".data) (h4 : pystrip l = "$$".data) :
    fixLinesF (n + 1) false (l :: rest) =
      blockOut (clean_display_lines (blockTake "$$".data rest)) ++
        fixLinesF n false (blockRest "$$".data rest) := by
  simp [fixLinesF, h1, h2, _h3, h4]

theorem flF_succ_plain (n : Nat) (l : List Char) (rest : List (List Char))
    (h1 : fenceB l = false) (h2 : is_remote_image l = false)
    (h3 : pystrip l ≠ "[".data) (h4 : pystrip l ≠ "$$".data) :
    fixLinesF (n + 1) false (l :: rest) =
      convert_inline_parens (escape_hash_in_math l) :: fixLinesF n false rest := by
  simp [fixLinesF, h1, h2, h3, h4]

theorem fl_nil (b : Bool) : fixLines b [] = [] := rfl

theorem fl_fence (b : Bool) (l : List Char) (rest : List (List Char))
    (h : fenceB l = true) :
    fixLines b (l :: rest) = l :: fixLines (!b) rest := by
  unfold fixLines
  simp only [List.length_cons]
  rw [flF_succ_fence rest.length b l rest h]

theorem fl_code (l : List Char) (rest : List (List Char)) (h : fenceB l = false) :
    fixLines true (l :: rest) = l :: fixLines true rest := by
  unfold fixLines
  simp only [List.length_cons]
  rw [flF_succ_code rest.length l rest h]

theorem fl_image (l : List Char) (rest : List (List Char))
    (h1 : fenceB l = false) (h2 : is_remote_image l = true) :
    fixLines false (l :: rest) = fixLines false rest := by
  unfold fixLines
  simp only [List.length_cons]
  rw [flF_succ_image rest.length l rest h1 h2]

theorem fl_bracket (l : List Char) (rest : List (List Char))
    (h1 : fenceB l = false) (h2 : is_remote_image l = false)
    (h3 : pystrip l = "[".data) :
    fixLines false (l :: rest) =
      blockOut (clean_display_lines (blockTake "]".data rest)) ++
        fixLines false (blockRest "]".data rest) := by
  unfold fixLines
  simp only [List.length_cons]
  rw [flF_succ_bracket rest.length l rest h1 h2 h3]
  rw [fixLinesF_irrel rest.length false (blockRest "]".data rest) (blockRest "]".data rest).length
    (blockRest_len _ _) (Nat.le_refl _)]

theorem fl_dollar (l : List Char) (rest : List (List Char))
    (h1 : fenceB l = false) (h2 : is_remote_image l = false)
    (h3 : pystrip l ≠ "[".data) (h4 : pystrip l = "$$".data) :
    fixLines false (l :: rest) =
      blockOut (clean_display_lines (blockTake "$$".data rest)) ++
        fixLines false (blockRest "$$".data rest) := by
  unfold fixLines
  simp only [List.length_cons]
  rw [flF_succ_dollar rest.length l rest h1 h2 h3 h4]
  rw [fixLinesF_irrel rest.length false (blockRest "$$".data rest)
    (blockRest "$$".data rest).length (blockRest_len _ _) (Nat.le_refl _)]

theorem fl_plain (l : List Char) (rest : List (List Char))
    (h1 : fenceB l = false) (h2 : is_remote_image l = false)
    (h3 : pystrip l ≠ "[".data) (h4 : pystrip l ≠ "$$".data) :
    fixLines false (l :: rest) =
      convert_inline_parens (escape_hash_in_math l) :: fixLines false rest := by
  unfold fixLines
  simp only [List.length_cons]
  rw [flF_succ_plain rest.length l rest h1 h2 h3 h4]

/-! ### Splitting a display block's interior -/

theorem blockTake_split (t : List Char) (int rest : List (List Char)) (cl : List Char)
    (hint : ∀ m ∈ int, pystrip m ≠ t) (hcl : pystrip cl = t) :
    blockTake t (int ++ cl :: rest) = int ∧ blockRest t (int ++ cl :: rest) = rest := by
  have hall : ∀ m ∈ int, (fun m => decide (pystrip m ≠ t)) m = true := by
    intro m hm
    simp [hint m hm]
  have hhd : ∀ x, (cl :: rest).head? = some x →
      (fun m => decide (pystrip m ≠ t)) x = false := by
    intro x hx
    simp only [List.head?_cons, Option.some.injEq] at hx
    rw [← hx]
    simp [hcl]
  constructor
  · unfold blockTake
    rw [tw_append_all _ int _ hall, tw_head_false _ _ hhd]
    simp
  · unfold blockRest
    rw [dw_append_all _ int _ hall, dw_head_false _ _ hhd]
    simp

theorem blockTake_all (t : List Char) (int : List (List Char))
    (hint : ∀ m ∈ int, pystrip m ≠ t) :
    blockTake t int = int ∧ blockRest t int = [] := by
  have hall : ∀ m ∈ int, (fun m => decide (pystrip m ≠ t)) m = true := by
    intro m hm
    simp [hint m hm]
  constructor
  · unfold blockTake
    rw [← List.append_nil int, tw_append_all _ int _ hall]
    simp
  · unfold blockRest
    rw [← List.append_nil int, dw_append_all _ int _ hall]
    simp

theorem guards_of_bracket (l : List Char) (h : pystrip l = "[".data) :
    fenceB l = false ∧ is_remote_image l = false := by
  constructor
  · unfold fenceB
    rw [h]
    decide
  · unfold is_remote_image
    rw [h]
    decide

theorem guards_of_dollar (l : List Char) (h : pystrip l = "$$".data) :
    fenceB l = false ∧ is_remote_image l = false ∧ pystrip l ≠ "[".data := by
  refine ⟨?_, ?_, ?_⟩
  · unfold fenceB
    rw [h]
    decide
  · unfold is_remote_image
    rw [h]
    decide
  · rw [h]
    decide

/-! ### C4: the bracketed display block -/

/-- C4: a `[` ... `]` display block with a non-empty cleaned interior emits
exactly one blank line, a `$$` line, the cleaned interior, a `$$` line and
one blank line before processing resumes after the terminator; a block whose
cleaning removes every line emits nothing at all. -/
theorem C4_display_block (op cl : List Char) (int rest : List (List Char))
    (hop : pystrip op = "[".data)
    (hint : ∀ m ∈ int, pystrip m ≠ "]".data)
    (hcl : pystrip cl = "]".data) :
    (clean_display_lines int ≠ [] →
      fixLines false (op :: (int ++ cl :: rest)) =
        ([] :: "$$".data :: (clean_display_lines int ++ ["$$".data, []])) ++
          fixLines false rest) ∧
    (clean_display_lines int = [] →
      fixLines false (op :: (int ++ cl :: rest)) = fixLines false rest) := by
  obtain ⟨h1, h2⟩ := guards_of_bracket op hop
  obtain ⟨ht, hd⟩ := blockTake_split "]".data int rest cl hint hcl
  have hb := fl_bracket op (int ++ cl :: rest) h1 h2 hop
  rw [ht, hd] at hb
  constructor
  · intro hne
    rw [hb]
    unfold blockOut
    rw [if_neg hne]
  · intro he
    rw [hb]
    unfold blockOut
    rw [if_pos he]
    simp

/-- Witness for C4: the spec's two examples, a one-line interior and a
separator-only interior. -/
theorem C4_display_block_witness :
    fixLines false (["[".data, "x = y".data, "]".data]) =
      [[], "$$".data, "x = y".data, "$$".data, []] ∧
    fixLines false (["[".data, "----------".data, "]".data]) = [] := by
  constructor
  · have h := (C4_display_block "[".data "]".data ["x = y".data] []
      (by decide) (by decide) (by decide)).1 (by decide)
    rw [show ("[".data :: (["x = y".data] ++ "]".data :: [])) =
      ["[".data, "x = y".data, "]".data] from rfl] at h
    rw [h]
    decide
  · have h := (C4_display_block "[".data "]".data ["----------".data] []
      (by decide) (by decide) (by decide)).2 (by decide)
    rw [show ("[".data :: (["----------".data] ++ "]".data :: [])) =
      ["[".data, "----------".data, "]".data] from rfl] at h
    rw [h]
    rfl

/-! ### C9: unterminated display blocks -/

/-- C9: a display block opened by a lone `[` (or lone `$$`) with no
terminator before the end of the document consumes everything to the end,
treats it as the interior under the normal emission rule, and processing
ends normally (the processor is a total function; no error value exists). -/
theorem C9_unterminated_block (op : List Char) (int : List (List Char))
    (h : (pystrip op = "[".data ∧ ∀ m ∈ int, pystrip m ≠ "]".data) ∨
         (pystrip op = "$$".data ∧ ∀ m ∈ int, pystrip m ≠ "$$".data)) :
    fixLines false (op :: int) = blockOut (clean_display_lines int) := by
  rcases h with ⟨hop, hint⟩ | ⟨hop, hint⟩
  · obtain ⟨h1, h2⟩ := guards_of_bracket op hop
    obtain ⟨ht, hd⟩ := blockTake_all "]".data int hint
    have hb := fl_bracket op int h1 h2 hop
    rw [ht, hd] at hb
    rw [hb, fl_nil]
    simp
  · obtain ⟨h1, h2, h3⟩ := guards_of_dollar op hop
    obtain ⟨ht, hd⟩ := blockTake_all "$$".data int hint
    have hb := fl_dollar op int h1 h2 h3 hop
    rw [ht, hd] at hb
    rw [hb, fl_nil]
    simp

/-- Witness for C9 at a concrete unterminated `$$` block. -/
theorem C9_unterminated_block_witness :
    fixLines false ["$$".data, "E = mc^2".data] =
      blockOut (clean_display_lines ["E = mc^2".data]) := by
  have h := C9_unterminated_block "$$".data ["E = mc^2".data]
    (Or.inr ⟨by decide, by decide⟩)
  exact h

/-! ### C5: code blocks pass through -/

/-- Counterexample to C5 as stated: the final blank-line collapse runs over
every emitted line, including lines copied verbatim by the code-block
branch, so the second of two consecutive blank lines inside a code fence is
deleted from the final output and that line's output does not equal its
input. -/
theorem C5_counterexample :
    fix_content_lines [[backquote, backquote, backquote], [], [],
        [backquote, backquote, backquote]] =
      [[backquote, backquote, backquote], [], [backquote, backquote, backquote]] ∧
    fix_content_lines [[backquote, backquote, backquote], [], [],
        [backquote, backquote, backquote]] ≠
      [[backquote, backquote, backquote], [], [],
        [backquote, backquote, backquote]] := by
  constructor
  · decide
  · decide

/-- C5 amended: while the code-block flag is set, the MAIN LOOP emits every
line that is not itself a fence exactly as it appears, with no
math-processing transformation applied; only the document-final blank-line
collapse still touches these lines. -/
theorem C5_code_block_identity (seg rest : List (List Char))
    (h : ∀ l ∈ seg, fenceB l = false) :
    fixLines true (seg ++ rest) = seg ++ fixLines true rest := by
  induction seg with
  | nil => rfl
  | cons l t ih =>
      rw [List.cons_append, fl_code l (t ++ rest) (h l (List.mem_cons_self l t))]
      rw [ih (fun x hx => h x (List.mem_cons_of_mem l hx))]
      rfl

/-- Witness for C5: a line full of transformable material is untouched
inside a code block. -/
theorem C5_code_block_identity_witness :
    fixLines true ["# (\\alpha) ![x](http://a)".data] =
      ["# (\\alpha) ![x](http://a)".data] := by
  have h := C5_code_block_identity ["# (\\alpha) ![x](http://a)".data] [] (by decide)
  simpa using h

/-! ### C10: the remote-image filter -/

/-- The shape matched by `re.match(r'!\[.*?\]\(https?://', line.strip())`:
the stripped line starts with the image marker `![`, and a link opener with
an `http(s)://` target is reachable without crossing a newline (the reach
of the lazy dot). -/
def RemoteImagePat (l : List Char) : Prop :=
  ∃ a b : List Char, '\n' ∉ a ∧
    (pystrip l = '!' :: '[' :: (a ++ ("](http://".data ++ b)) ∨
     pystrip l = '!' :: '[' :: (a ++ ("](https://".data ++ b)))

theorem remAux_iff (r : List Char) :
    remAux r = true ↔ ∃ a b : List Char, '\n' ∉ a ∧
      (r = a ++ ("](http://".data ++ b) ∨ r = a ++ ("](https://".data ++ b)) := by
  induction r with
  | nil =>
      constructor
      · intro h
        exact absurd h (by simp [remAux])
      · rintro ⟨a, b, hn, h | h⟩ <;> exact absurd h (by simp)
  | cons c t ih =>
      by_cases hp : (("](http://".data).isPrefixOf (c :: t) ||
          ("](https://".data).isPrefixOf (c :: t)) = true
      · have hstep : remAux (c :: t) = if (("](http://".data).isPrefixOf (c :: t) ||
            ("](https://".data).isPrefixOf (c :: t)) = true then true
            else if c = '\n' then false else remAux t := rfl
        have hra : remAux (c :: t) = true := by
          rw [hstep, if_pos hp]
        rw [hra]
        simp only [true_iff]
        rw [Bool.or_eq_true] at hp
        rcases hp with hp | hp
        · rw [List.isPrefixOf_iff_prefix] at hp
          obtain ⟨b, hb⟩ := hp
          exact ⟨[], b, by simp, Or.inl (by rw [← hb]; rfl)⟩
        · rw [List.isPrefixOf_iff_prefix] at hp
          obtain ⟨b, hb⟩ := hp
          exact ⟨[], b, by simp, Or.inr (by rw [← hb]; rfl)⟩
      · rw [Bool.not_eq_true] at hp
        by_cases hnl : c = '\n'
        · have hstep : remAux (c :: t) = if (("](http://".data).isPrefixOf (c :: t) ||
              ("](https://".data).isPrefixOf (c :: t)) = true then true
              else if c = '\n' then false else remAux t := rfl
          have hra : remAux (c :: t) = false := by
            rw [hstep, if_neg (by simp [hp]), if_pos hnl]
          rw [hra]
          simp only [Bool.false_eq_true, false_iff]
          rintro ⟨a, b, hn, h | h⟩
          · cases a with
            | nil =>
                simp only [List.nil_append] at h
                rw [hnl] at h
                simp at h
            | cons x a2 =>
                rw [List.cons_append, List.cons.injEq] at h
                have hx : x = '\n' := by rw [← h.1, hnl]
                refine hn ?_
                rw [← hx]
                exact List.mem_cons_self x a2
          · cases a with
            | nil =>
                simp only [List.nil_append] at h
                rw [hnl] at h
                simp at h
            | cons x a2 =>
                rw [List.cons_append, List.cons.injEq] at h
                have hx : x = '\n' := by rw [← h.1, hnl]
                refine hn ?_
                rw [← hx]
                exact List.mem_cons_self x a2
        · have hstep : remAux (c :: t) = if (("](http://".data).isPrefixOf (c :: t) ||
              ("](https://".data).isPrefixOf (c :: t)) = true then true
              else if c = '\n' then false else remAux t := rfl
          have hra : remAux (c :: t) = remAux t := by
            rw [hstep, if_neg (by simp [hp]), if_neg hnl]
          rw [hra, ih]
          constructor
          · rintro ⟨a, b, hn, h | h⟩
            · refine ⟨c :: a, b, ?_, Or.inl (by rw [List.cons_append, h])⟩
              intro hm
              rcases List.mem_cons.mp hm with he | hm2
              · exact hnl he.symm
              · exact hn hm2
            · refine ⟨c :: a, b, ?_, Or.inr (by rw [List.cons_append, h])⟩
              intro hm
              rcases List.mem_cons.mp hm with he | hm2
              · exact hnl he.symm
              · exact hn hm2
          · rintro ⟨a, b, hn, h | h⟩
            · cases a with
              | nil =>
                  exfalso
                  simp only [List.nil_append] at h
                  have hpre : ("](http://".data).isPrefixOf (c :: t) = true := by
                    rw [List.isPrefixOf_iff_prefix, h]
                    exact ⟨b, rfl⟩
                  rw [hpre] at hp
                  exact absurd hp (by simp)
              | cons x a2 =>
                  rw [List.cons_append, List.cons.injEq] at h
                  exact ⟨a2, b, fun hm => hn (List.mem_cons_of_mem x hm), Or.inl h.2⟩
            · cases a with
              | nil =>
                  exfalso
                  simp only [List.nil_append] at h
                  have hpre : ("](https://".data).isPrefixOf (c :: t) = true := by
                    rw [List.isPrefixOf_iff_prefix, h]
                    exact ⟨b, rfl⟩
                  rw [hpre] at hp
                  exact absurd hp (by simp)
              | cons x a2 =>
                  rw [List.cons_append, List.cons.injEq] at h
                  exact ⟨a2, b, fun hm => hn (List.mem_cons_of_mem x hm), Or.inr h.2⟩

/-- C10: a line is recognized as a remote image exactly when its stripped
content begins with `![` followed eventually (no newline between) by a
`](http://` or `](https://` opener; a line with leading text before the
image marker, or with a non-HTTP target, is never dropped and instead goes
through the normal inline-processing path of the line processor. -/
theorem C10_remote_image (l : List Char) :
    (is_remote_image l = true ↔ RemoteImagePat l) ∧
    (∀ rest : List (List Char), fenceB l = false → is_remote_image l = false →
      pystrip l ≠ "[".data → pystrip l ≠ "$$".data →
      fixLines false (l :: rest) =
        convert_inline_parens (escape_hash_in_math l) :: fixLines false rest) := by
  constructor
  · unfold RemoteImagePat
    cases hs : pystrip l with
    | nil =>
        have hri : is_remote_image l = false := by
          unfold is_remote_image
          rw [hs]
        rw [hri]
        simp only [Bool.false_eq_true, false_iff]
        rintro ⟨a, b, hn, h | h⟩ <;> exact absurd h (by simp)
    | cons c1 t1 =>
        cases t1 with
        | nil =>
            have hri : is_remote_image l = false := by
              unfold is_remote_image
              rw [hs]
              split
              · next heq => exact absurd heq (by simp)
              · rfl
            rw [hri]
            simp only [Bool.false_eq_true, false_iff]
            rintro ⟨a, b, hn, h | h⟩ <;> simp at h
        | cons c2 r =>
            by_cases hc : c1 = '!' ∧ c2 = '['
            · obtain ⟨hc1, hc2⟩ := hc
              subst hc1
              subst hc2
              have hri : is_remote_image l = remAux r := by
                unfold is_remote_image
                rw [hs]
                rfl
              rw [hri, remAux_iff]

              constructor
              · rintro ⟨a, b, hn, h | h⟩
                · exact ⟨a, b, hn, Or.inl (by rw [h])⟩
                · exact ⟨a, b, hn, Or.inr (by rw [h])⟩
              · rintro ⟨a, b, hn, h | h⟩
                · simp only [List.cons.injEq, true_and] at h
                  exact ⟨a, b, hn, Or.inl h⟩
                · simp only [List.cons.injEq, true_and] at h
                  exact ⟨a, b, hn, Or.inr h⟩
            · have hri : is_remote_image l = false := by
                unfold is_remote_image
                rw [hs]
                split
                · next heq =>
                    exfalso
                    rw [List.cons.injEq] at heq
                    obtain ⟨e1, heq2⟩ := heq
                    rw [List.cons.injEq] at heq2
                    exact hc ⟨e1, heq2.1⟩
                · rfl
              rw [hri]
              simp only [Bool.false_eq_true, false_iff]
              rintro ⟨a, b, hn, h | h⟩ <;>
              · rw [List.cons.injEq] at h
                obtain ⟨e1, h2⟩ := h
                rw [List.cons.injEq] at h2
                exact hc ⟨e1, h2.1⟩
  · intro rest h1 h2 h3 h4
    exact fl_plain l rest h1 h2 h3 h4

/-- Witness for C10: an image preceded by text, and an image with a local
target, both pass through inline processing untouched. -/
theorem C10_remote_image_witness :
    is_remote_image "z ![x](http://a)".data = false ∧
    is_remote_image "![x](local.png)".data = false ∧
    fixLines false ["![x](local.png)".data] =
      [convert_inline_parens (escape_hash_in_math "![x](local.png)".data)] := by
  refine ⟨by decide, by decide, ?_⟩
  have h := (C10_remote_image "![x](local.png)".data).2 [] (by decide) (by decide)
    (by decide) (by decide)
  rw [h, fl_nil]

/-! ### C7: round-trip stability -/

/-- Counterexample to C7 as stated: the one-line document `#` satisfies the
claim's conditions (no math outside dollar spans, no convertible paren
spans, no separator lines) yet the transformation escapes the hash. -/
theorem C7_counterexample : fix_content_lines ["#".data] ≠ ["#".data] := by
  decide

/-- No two adjacent whitespace characters (so `\s+` collapse is inert). -/
def noDoubleWS : List Char → Bool
  | [] => true
  | [_] => true
  | a :: b :: r => (!(isPySpace a && isPySpace b)) && noDoubleWS (b :: r)

theorem noDoubleWS_tail (c : Char) (r : List Char) (h : noDoubleWS (c :: r) = true) :
    noDoubleWS r = true := by
  cases r with
  | nil => rfl
  | cons b r2 =>
      simp only [noDoubleWS, Bool.and_eq_true] at h
      exact h.2

theorem noDoubleWS_head (a b : Char) (r : List Char)
    (h : noDoubleWS (a :: b :: r) = true) (ha : isPySpace a = true) :
    isPySpace b = false := by
  simp only [noDoubleWS, Bool.and_eq_true, Bool.not_eq_true', Bool.and_eq_false_iff] at h
  rcases h.1 with h1 | h1
  · rw [ha] at h1
    exact absurd h1 (by simp)
  · exact h1

/-- Lines that the inline scanner provably copies unchanged: characters
other than `#`, `$`, `(`, plus well-formed nonempty single-dollar spans
(which the scanner copies verbatim). -/
inductive InlineOK : List Char → Prop
  | nil : InlineOK []
  | ch (c : Char) (r : List Char) : c ≠ '$' → c ≠ '(' → c ≠ '#' →
      InlineOK r → InlineOK (c :: r)
  | span (a r : List Char) : a ≠ [] → '$' ∉ a → '#' ∉ a →
      InlineOK r → InlineOK ('$' :: (a ++ '$' :: r))

theorem InlineOK_no_hash (l : List Char) (h : InlineOK l) : '#' ∉ l := by
  induction h with
  | nil => simp
  | ch c r hc1 hc2 hc3 hr ih =>
      intro hm
      rcases List.mem_cons.mp hm with he | hm2
      · exact hc3 he.symm
      · exact ih hm2
  | span a r ha hda hha hr ih =>
      intro hm
      rcases List.mem_cons.mp hm with he | hm2
      · exact absurd he (by decide)
      · rcases List.mem_append.mp hm2 with h3 | h4
        · exact hha h3
        · rcases List.mem_cons.mp h4 with he2 | h5
          · exact absurd he2 (by decide)
          · exact ih h5

theorem ehAux_id_no_hash (l : List Char) (h : '#' ∉ l) :
    ∀ p : Option Char, ehAux p l = l := by
  induction l with
  | nil => intro p; rfl
  | cons c r ih =>
      intro p
      have hc : c ≠ '#' := fun he => h (by simp [he])
      rw [show ehAux p (c :: r) = c :: ehAux (some c) r from by simp [ehAux, hc]]
      rw [ih (fun hm => h (List.mem_cons_of_mem c hm)) (some c)]

theorem eh_id_of_no_hash (l : List Char) (h : '#' ∉ l) :
    escape_hash_in_math l = l :=
  ehAux_id_no_hash l h none

theorem ci_id_of_InlineOK (l : List Char) (h : InlineOK l) :
    convert_inline_parens l = l := by
  induction h with
  | nil => exact ci_nil
  | ch c r h1 h2 h3 hr ih => rw [ci_other c r h1 h2, ih]
  | span a r ha hda hha hr ih =>
      cases a with
      | nil => exact absurd rfl ha
      | cons a0 a2 =>
          have h0 : a0 ≠ '$' := fun he => hda (by simp [he])
          have hh : ((a0 :: a2) ++ '$' :: r).head? ≠ some '$' := by simp [h0]
          have hfd : findD ((a0 :: a2) ++ '$' :: r) = some (a0 :: a2, r) :=
            findD_append (a0 :: a2) r hda
          rw [ci_d_some _ (a0 :: a2) r hh hfd, ih]

/-- A prose line of an already-converted document. -/
def ProseLine (l : List Char) : Prop :=
  InlineOK l ∧ l ≠ [] ∧ fenceB l = false ∧ is_remote_image l = false ∧
  pystrip l ≠ "[".data ∧ pystrip l ≠ "$$".data

theorem fl_prose (l : List Char) (rest : List (List Char)) (h : ProseLine l) :
    fixLines false (l :: rest) = l :: fixLines false rest := by
  obtain ⟨h1, _h2, h3, h4, h5, h6⟩ := h
  rw [fl_plain l rest h3 h4 h5 h6]
  rw [eh_id_of_no_hash l (InlineOK_no_hash l h1), ci_id_of_InlineOK l h1]

theorem fl_blank (rest : List (List Char)) :
    fixLines false ([] :: rest) = [] :: fixLines false rest := by
  rw [fl_plain [] rest (by decide) (by decide) (by decide) (by decide)]
  rfl

/-- An interior line of an already-converted display block: the cleaner
leaves it unchanged. -/
def DispLine (l : List Char) : Prop :=
  l ≠ [] ∧ is_pure_separator l = false ∧
  ¬ (['=', '=', '='] <:+: l) ∧ ¬ (['-', '-', '-'] <:+: l) ∧ ¬ (['_', '_', '_'] <:+: l) ∧
  '#' ∉ l ∧ (∀ c ∈ l, isPySpace c = true → c = ' ') ∧ noDoubleWS l = true ∧
  rstripL l = l ∧ pystrip l ≠ [] ∧ pystrip l ≠ "$$".data

theorem ccc_infix_replicate (c : Char) (k : Nat) (h : 3 ≤ k) (l : List Char) :
    [c, c, c] <:+: (List.replicate k c ++ l) := by
  refine ⟨[], List.replicate (k - 3) c ++ l, ?_⟩
  rw [List.nil_append, show ([c, c, c] : List Char) = List.replicate 3 c from rfl]
  rw [← List.append_assoc, ← List.replicate_add]
  congr 2
  omega

theorem rsAux_id (c : Char) : ∀ (l : List Char) (k : Nat),
    ¬ ([c, c, c] <:+: (List.replicate k c ++ l)) →
    rsAux c k l = List.replicate k c ++ l := by
  intro l
  induction l with
  | nil =>
      intro k h
      have hk : ¬ 3 ≤ k := fun h3 => h (ccc_infix_replicate c k h3 [])
      show repFlush c k = List.replicate k c ++ []
      unfold repFlush
      rw [if_neg hk, List.append_nil]
  | cons x r ih =>
      intro k h
      by_cases hx : x = c
      · subst hx
        have hrw : List.replicate (k + 1) x ++ r = List.replicate k x ++ (x :: r) := by
          rw [List.replicate_succ', List.append_assoc]
          rfl
        rw [show rsAux x k (x :: r) = rsAux x (k + 1) r from by simp [rsAux]]
        rw [ih (k + 1) (by rw [hrw]; exact h), hrw]
      · have hk : ¬ 3 ≤ k := by
          intro h3
          refine h ?_
          have h4 := ccc_infix_replicate c k h3 (x :: r)
          exact h4
        have hr : ¬ ([c, c, c] <:+: r) := by
          intro hin
          refine h ?_
          obtain ⟨s, t, hst⟩ := hin
          exact ⟨List.replicate k c ++ (x :: s), t, by rw [← hst]; simp⟩
        rw [show rsAux c k (x :: r) = repFlush c k ++ (x :: rsAux c 0 r) from by
          simp [rsAux, hx]]
        rw [show rsAux c 0 r = r from by
          have := ih 0 (by simpa using hr)
          simpa using this]
        unfold repFlush
        rw [if_neg hk]

theorem runSub_id (c : Char) (l : List Char) (h : ¬ ([c, c, c] <:+: l)) :
    runSub c l = l := by
  unfold runSub
  have := rsAux_id c l 0 (by simpa using h)
  simpa using this

theorem wcAux_id : ∀ l : List Char, (∀ c ∈ l, isPySpace c = true → c = ' ') →
    noDoubleWS l = true →
    ∀ p : Bool, (p = true → ∀ x, l.head? = some x → isPySpace x = false) →
    wcAux p l = l := by
  intro l
  induction l with
  | nil => intro _ _ p _; rfl
  | cons c r ih =>
      intro hsp hnd p hp
      by_cases hc : isPySpace c = true
      · have hc' : c = ' ' := hsp c (List.mem_cons_self c r) hc
        have hpf : p = false := by
          cases p with
          | false => rfl
          | true => exact absurd (hp rfl c rfl) (by simp [hc])
        subst hpf
        rw [show wcAux false (c :: r) = ' ' :: wcAux true r from by simp [wcAux, hc]]
        rw [← hc']
        have hhd : ∀ x, r.head? = some x → isPySpace x = false := by
          intro x hx
          cases r with
          | nil => exact absurd hx (by simp)
          | cons y r2 =>
              simp only [List.head?_cons, Option.some.injEq] at hx
              rw [← hx]
              exact noDoubleWS_head c y r2 hnd hc
        rw [ih (fun z hz => hsp z (List.mem_cons_of_mem c hz))
          (noDoubleWS_tail c r hnd) true (fun _ => hhd)]
      · rw [show wcAux p (c :: r) = c :: wcAux false r from by simp [wcAux, hc]]
        rw [ih (fun z hz => hsp z (List.mem_cons_of_mem c hz))
          (noDoubleWS_tail c r hnd) false (by simp)]

theorem wsCollapse_id (l : List Char)
    (hsp : ∀ c ∈ l, isPySpace c = true → c = ' ') (hnd : noDoubleWS l = true) :
    wsCollapse l = l :=
  wcAux_id l hsp hnd false (by simp)

theorem cdl_id (int : List (List Char)) (h : ∀ l ∈ int, DispLine l) :
    clean_display_lines int = int := by
  induction int with
  | nil => rfl
  | cons l r ih =>
      obtain ⟨hne, hsep, he3, hm3, hu3, hhash, hsp, hnd, hrst, hst, _⟩ :=
        h l (List.mem_cons_self l r)
      have h5 : wsCollapse (escape_hash_in_math (runSub '_' (runSub '-' (runSub '=' l)))) = l := by
        rw [runSub_id '=' l he3, runSub_id '-' l hm3, runSub_id '_' l hu3,
          eh_id_of_no_hash l hhash, wsCollapse_id l hsp hnd]
      rw [show clean_display_lines (l :: r) =
          if is_pure_separator l = true then clean_display_lines r
          else if pystrip (wsCollapse (escape_hash_in_math
              (runSub '_' (runSub '-' (runSub '=' l))))) = [] then clean_display_lines r
          else rstripL (wsCollapse (escape_hash_in_math
              (runSub '_' (runSub '-' (runSub '=' l))))) :: clean_display_lines r
        from rfl]
      rw [if_neg (by simp [hsep]), h5, if_neg hst, hrst,
        ih (fun x hx => h x (List.mem_cons_of_mem l hx))]

theorem collapseAux_blank_skip (r : List (List Char)) :
    collapseAux true ([] :: r) = collapseAux true r := by
  simp [collapseAux]

theorem collapseAux_blank_emit (r : List (List Char)) :
    collapseAux false ([] :: r) = [] :: collapseAux true r := by
  simp [collapseAux]

theorem collapseAux_line (p : Bool) (l : List Char) (r : List (List Char)) (h : l ≠ []) :
    collapseAux p (l :: r) = l :: collapseAux false r := by
  simp [collapseAux, h]

theorem collapseAux_nonempty_append (ls : List (List Char))
    (h : ∀ l ∈ ls, l ≠ []) (r : List (List Char)) (p : Bool) :
    collapseAux p (ls ++ r) = ls ++ collapseAux (if ls.isEmpty then p else false) r := by
  induction ls generalizing p with
  | nil => simp
  | cons x t ih =>
      rw [List.cons_append, collapseAux_line p x _ (h x (List.mem_cons_self x t))]
      rw [ih (fun z hz => h z (List.mem_cons_of_mem x hz)) false]
      rw [ite_self]
      rfl

/-- The shape of an already-converted document: prose lines that the line
processor provably copies, single blank lines never adjacent to another
blank, and `$$` display blocks carrying their own single surrounding blank
lines with interiors the cleaner keeps.  The flag records whether a leading
blank line is still allowed. -/
inductive Conv : Bool → List (List Char) → Prop
  | nil (b : Bool) : Conv b []
  | prose (b : Bool) (l : List Char) (rest : List (List Char)) :
      ProseLine l → Conv true rest → Conv b (l :: rest)
  | blank (rest : List (List Char)) : Conv false rest → Conv true ([] :: rest)
  | disp (int rest : List (List Char)) : int ≠ [] → (∀ m ∈ int, DispLine m) →
      Conv false rest →
      Conv true ([] :: "$$".data :: (int ++ "$$".data :: [] :: rest))

theorem conv_main : ∀ (b : Bool) (doc : List (List Char)), Conv b doc →
    collapseAux false (fixLines false doc) = doc ∧
    (b = false → collapseAux true (fixLines false doc) = doc) := by
  intro b doc h
  induction h with
  | nil b => exact ⟨rfl, fun _ => rfl⟩
  | prose b l rest hl hrest ih =>
      have hfl := fl_prose l rest hl
      have hln : l ≠ [] := hl.2.1
      constructor
      · rw [hfl, collapseAux_line false l _ hln, ih.1]
      · intro _
        rw [hfl, collapseAux_line true l _ hln, ih.1]
  | blank rest hrest ih =>
      constructor
      · rw [fl_blank rest, collapseAux_blank_emit, ih.2 rfl]
      · intro hb
        exact absurd hb (by simp)
  | disp int rest hne hdisp hrest ih =>
      have hcdl : clean_display_lines int = int := cdl_id int hdisp
      have hterm : ∀ m ∈ int, pystrip m ≠ "$$".data := by
        intro m hm
        exact (hdisp m hm).2.2.2.2.2.2.2.2.2.2
      have hnonempty : ∀ m ∈ int, m ≠ [] := fun m hm => (hdisp m hm).1
      obtain ⟨g1, g2, g3⟩ := guards_of_dollar "$$".data (by decide)
      have hsplit := blockTake_split "$$".data int ([] :: rest) "$$".data hterm (by decide)
      have hfl2 := fl_dollar "$$".data (int ++ "$$".data :: [] :: rest) g1 g2 g3 (by decide)
      rw [hsplit.1, hsplit.2, hcdl] at hfl2
      rw [show blockOut int = [] :: "$$".data :: (int ++ ["$$".data, []]) from by
        unfold blockOut; rw [if_neg hne]] at hfl2
      rw [fl_blank rest] at hfl2
      have hie : int.isEmpty = false := by
        cases int with
        | nil => exact absurd rfl hne
        | cons a t => rfl
      constructor
      · rw [fl_blank _, hfl2]
        simp only [List.cons_append, List.append_assoc, List.nil_append]
        rw [collapseAux_blank_emit, collapseAux_blank_skip,
          collapseAux_line true "$$".data _ (by decide)]
        rw [collapseAux_nonempty_append int hnonempty _ false, hie]
        rw [if_neg (by simp)]
        rw [collapseAux_line false "$$".data _ (by decide)]
        rw [collapseAux_blank_emit, collapseAux_blank_skip, ih.2 rfl]
      · intro hb
        exact absurd hb (by simp)

/-- C7 amended: round-trip stability holds for documents in converted form
in the strengthened sense of `Conv`: prose lines with no hash, no
parenthesis and no stray dollar outside well-formed `$...$` spans, no
remote-image lines, no lone `[`, blank lines never doubled, and `$$`
display blocks carrying exactly one blank line on each side with interiors
that the display cleaner keeps verbatim.  For every such document the whole
transformation is the identity. -/
theorem C7_roundtrip_stable (doc : List (List Char)) (h : Conv true doc) :
    fix_content_lines doc = doc := by
  unfold fix_content_lines
  exact (conv_main true doc h).1

theorem InlineOK_of_plain (l : List Char)
    (h : ∀ c ∈ l, c ≠ '$' ∧ c ≠ '(' ∧ c ≠ '#') : InlineOK l := by
  induction l with
  | nil => exact InlineOK.nil
  | cons c r ih =>
      obtain ⟨h1, h2, h3⟩ := h c (List.mem_cons_self c r)
      exact InlineOK.ch c r h1 h2 h3 (ih (fun z hz => h z (List.mem_cons_of_mem c hz)))

/-- Witness for C7 at a concrete converted document: prose, a display
block with its blank padding, and trailing prose, all reproduced exactly. -/
theorem C7_roundtrip_stable_witness :
    fix_content_lines ["x + y".data, [], "$$".data, "E = mc^2".data, "$$".data, [],
      "done".data] =
      ["x + y".data, [], "$$".data, "E = mc^2".data, "$$".data, [], "done".data] := by
  apply C7_roundtrip_stable
  refine Conv.prose true "x + y".data _ ?_ ?_
  · exact ⟨InlineOK_of_plain _ (by decide), by decide, by decide, by decide,
      by decide, by decide⟩
  · refine Conv.disp ["E = mc^2".data] ["done".data] (by decide) ?_ ?_
    · intro m hm
      rw [List.mem_singleton] at hm
      subst hm
      exact ⟨by decide, by decide, by decide, by decide, by decide, by decide,
        by decide, by decide, by decide, by decide, by decide⟩
    · refine Conv.prose false "done".data [] ?_ (Conv.nil true)
      exact ⟨InlineOK_of_plain _ (by decide), by decide, by decide, by decide,
        by decide, by decide⟩
